import Mathlib

/-!
Verification development for `src/sequences/random_markov.py`.

The module builds a random row-stochastic transition matrix, samples binary
integer operators from a fixed pool, and generates a sequence by repeatedly
applying the operator bound to the current Markov state to the last two
sequence values.

Modelling conventions:
* Python floats are modelled exactly as rationals (`ℚ`); `random.random()`
  draws are an explicit oracle `mdraw : Nat → Nat → ℚ` (row index, column
  index).
* `random.sample(operation_pool, k)` is modelled by the list `idxs` of chosen
  pool indices (the sampler guarantees distinct, in-range indices of the
  requested length, stated as hypotheses where needed).
* `random.randint(1, 5)` draws for synthesized operators are the list `cs`.
* `random.choices(range(n), probabilities)` draws in `update_state` are the
  oracle `sdraw : Nat → Nat` indexed by the loop step; the library guarantees
  the returned index is in `range(len(probabilities))`, so a draw outside that
  range is mapped to `none` (an unreachable outcome).
* A Python exception (`IndexError`, `ZeroDivisionError`) is modelled by
  `none`; normal return is `some`.
-/

namespace RandomMarkov

/-- Python list subscription `xs[i]`: nonnegative indices from the front,
negative indices from the back (`xs[-1]` is the last element); an
out-of-range index raises `IndexError`, modelled as `none`. -/
def pyGet {α : Type _} (xs : List α) (i : Int) : Option α :=
  if 0 ≤ i then xs.get? i.toNat
  else if (-i).toNat ≤ xs.length then xs.get? (xs.length - (-i).toNat)
  else none

/-- Collect a list of optional values, failing if any entry is `none`. -/
def optList {α : Type _} : List (Option α) → Option (List α)
  | [] => some []
  | none :: _ => none
  | some a :: rest => (optList rest).map (a :: ·)

/-- `row[i] *= 0.2`: damp the diagonal entry of a freshly drawn row
(`0.2 = 1/5` exactly in the rational model). -/
def dampDiag (row : List ℚ) (i : Nat) : List ℚ :=
  row.set i (row.getD i 0 * (1 / 5))

/-- One row of the transition matrix, from the `num_states` raw draws for
row `i`: damp the diagonal, then normalize by the row sum
(`row = [p / row_sum for p in row]`).  A zero row sum raises
`ZeroDivisionError` in Python, modelled as `none`. -/
def buildRow (draws : List ℚ) (i : Nat) : Option (List ℚ) :=
  let row := dampDiag draws i
  let row_sum := row.sum
  if row_sum = 0 then none
  else some (row.map (fun p => p / row_sum))

/-- The transition-matrix construction loop of `markov`: for each
`i in range(num_states)`, draw `num_states` values and build the row. -/
def buildMatrix (mdraw : Nat → Nat → ℚ) (num_states : Nat) :
    Option (List (List ℚ)) :=
  optList ((List.range num_states).map (fun i =>
    buildRow ((List.range num_states).map (mdraw i)) i))

/-- The two guarded floor divisions from the pool: `x // (y if y != 0 else 1)`.
Python `//` is floor division, i.e. `Int.fdiv`. -/
def op_x_div_y (x y : Int) : Int := Int.fdiv x (if y ≠ 0 then y else 1)

/-- `y // (x if x != 0 else 1)` from the pool. -/
def op_y_div_x (x y : Int) : Int := Int.fdiv y (if x ≠ 0 then x else 1)

/-- The fixed `operation_pool` of `(function, description)` pairs, in source
order.  Python `%` and `//` on integers are Euclidean-style on positive
modulus, matching `Int.emod`/`Int.fdiv` for the parity tests used here. -/
def operation_pool : List ((Int → Int → Int) × String) :=
  [ (fun x y => x + y, "x + y"),
    (fun x y => x - y, "x - y"),
    (fun x y => y - x, "y - x"),
    (fun x y => x + y + 1, "x + y + 1"),
    (fun x y => x - y + 1, "x - y + 1"),
    (fun x y => |x - y|, "abs(x - y)"),
    (fun x y => Int.fdiv (x + y) 2, "(x + y) // 2"),
    (fun x y => if (x - y) % 2 = 0 then Int.fdiv (x - y) 2
                else Int.fdiv (x - y + 1) 2, "(x - y) // 2"),
    (fun x y => if (y - x) % 2 = 0 then Int.fdiv (y - x) 2
                else Int.fdiv (y - x + 1) 2, "(y - x) // 2"),
    (fun x y => max x y, "max(x, y)"),
    (fun x y => min x y, "min(x, y)"),
    (fun x _ => x * 2, "x * 2"),
    (fun _ y => y * 2, "y * 2"),
    (fun x y => (x + y) * 2, "(x + y) * 2"),
    (op_x_div_y, "x // y"),
    (op_y_div_x, "y // x") ]

/-- `random.sample(pool, k)` modelled by the list of selected indices: the
entries of `pool` at positions `idxs`, in selection order. -/
def sample_list {α : Type _} (pool : List α) (idxs : List Nat) : List α :=
  idxs.filterMap (fun i => pool.get? i)

/-- A synthesized extra operator `lambda x, y, c=c: x + y + c` with its label
`f"x + y + {c}"`. -/
def synth_op (c : Int) : (Int → Int → Int) × String :=
  (fun x y => x + y + c, "x + y + " ++ toString c)

/-- `selected_operations` in `markov`: sample
`min(num_states, len(operation_pool))` pool entries, then, if `num_states`
exceeds the pool size, append synthesized operators with the drawn
constants `cs`.  (The source builds `functions_matrix` and `function_names`
as two parallel lists; appending the pairs and projecting is equivalent.) -/
def selected_operations (idxs : List Nat) (cs : List Int) (num_states : Nat) :
    List ((Int → Int → Int) × String) :=
  let sampled := sample_list operation_pool idxs
  if operation_pool.length < num_states then
    sampled ++ cs.map synth_op
  else sampled

/-- The `MarkovChain` class: transition matrix, per-state functions and
names, current state.  The state is a Python integer (it may be negative,
in which case indexing with it uses Python negative-index semantics). -/
structure MarkovChain where
  transition_matrix : List (List ℚ)
  functions_matrix : List (Int → Int → Int)
  function_names : List String
  state : Int

/-- `MarkovChain.update_state`: look up the current state's probability row
and commit the drawn next state.  `random.choices(range(len(probabilities)),
probabilities)` always returns an index below `len(probabilities)`; a draw
outside that range does not occur and is mapped to `none`. -/
def MarkovChain.update_state (mc : MarkovChain) (draw : Nat) :
    Option MarkovChain := do
  let probabilities ← pyGet mc.transition_matrix mc.state
  if draw < probabilities.length then
    some { mc with state := (draw : Int) }
  else none

/-- The generation loop `for step in range(1, steps)` of `markov`, with the
remaining iteration count as first argument and the current `step` index
second.  Each iteration looks up the current state's function and name,
appends `function(sequence[-1], sequence[-2])`, then updates the state with
the draw for this step. -/
def markov_loop (sdraw : Nat → Nat) :
    Nat → Nat → MarkovChain → List Int → Option (List Int)
  | 0, _, _, sequence => some sequence
  | k + 1, stepIdx, mc, sequence => do
      let f ← pyGet mc.functions_matrix mc.state
      let _fname ← pyGet mc.function_names mc.state
      let a ← pyGet sequence (-1)
      let b ← pyGet sequence (-2)
      let sequence2 := sequence ++ [f a b]
      let mc2 ← mc.update_state (sdraw stepIdx)
      markov_loop sdraw k (stepIdx + 1) mc2 sequence2

/-- `markov(initial_values, steps, initial_state, num_states)` with the
randomness made explicit: `mdraw` are the uniform draws for the transition
matrix, `idxs` the pool indices chosen by `random.sample`, `cs` the
constants for synthesized operators, `sdraw` the per-step next-state draws.
`sequence = initial_values.copy()` is value copying here (see the heap
model below for the aliasing-sensitive version). -/
def markov (initial_values : List Int) (steps : Nat) (initial_state : Int)
    (num_states : Nat) (mdraw : Nat → Nat → ℚ) (idxs : List Nat)
    (cs : List Int) (sdraw : Nat → Nat) : Option (List Int) := do
  let transition_matrix ← buildMatrix mdraw num_states
  let selected := selected_operations idxs cs num_states
  let mc : MarkovChain :=
    { transition_matrix := transition_matrix
      functions_matrix := selected.map Prod.fst
      function_names := selected.map Prod.snd
      state := initial_state }
  let sequence := initial_values
  markov_loop sdraw (steps - 1) 1 mc sequence

/-- Heap-model variant of the generation loop, for the aliasing claim: the
heap maps addresses (indices) to Python list objects; the growing sequence
lives at `seqAddr` and `sequence.append(...)` mutates that cell in place. -/
def heap_markov_loop (sdraw : Nat → Nat) :
    Nat → Nat → MarkovChain → List (List Int) → Nat → Option (List (List Int))
  | 0, _, _, heap, _ => some heap
  | k + 1, stepIdx, mc, heap, seqAddr => do
      let f ← pyGet mc.functions_matrix mc.state
      let _fname ← pyGet mc.function_names mc.state
      let sequence := heap.getD seqAddr []
      let a ← pyGet sequence (-1)
      let b ← pyGet sequence (-2)
      let heap2 := heap.set seqAddr (sequence ++ [f a b])
      let mc2 ← mc.update_state (sdraw stepIdx)
      heap_markov_loop sdraw k (stepIdx + 1) mc2 heap2 seqAddr

/-- Heap-model variant of `markov`: the caller's `initial_values` list lives
at address `ivAddr` of `heap`; `sequence = initial_values.copy()` allocates
a fresh cell at address `heap.length` holding a copy of that list, and the
loop then mutates only the fresh cell.  Returns the final heap. -/
def heap_markov (heap : List (List Int)) (ivAddr : Nat) (steps : Nat)
    (initial_state : Int) (num_states : Nat) (mdraw : Nat → Nat → ℚ)
    (idxs : List Nat) (cs : List Int) (sdraw : Nat → Nat) :
    Option (List (List Int)) := do
  let transition_matrix ← buildMatrix mdraw num_states
  let selected := selected_operations idxs cs num_states
  let mc : MarkovChain :=
    { transition_matrix := transition_matrix
      functions_matrix := selected.map Prod.fst
      function_names := selected.map Prod.snd
      state := initial_state }
  let heap2 := heap ++ [heap.getD ivAddr []]
  heap_markov_loop sdraw (steps - 1) 1 mc heap2 heap.length

/-! ### Helper lemmas -/

/-- Concrete evaluation helper: with a single state and all matrix draws
equal to `1/2`, the constructed transition matrix is the degenerate
always-self-transition matrix `[[1]]`. -/
theorem buildMatrix_half_one :
    buildMatrix (fun _ _ => (1 : ℚ) / 2) 1 = some [[1]] := by
  norm_num [buildMatrix, buildRow, dampDiag, optList, List.range_succ,
    List.range_zero, List.getD]

/-- `xs[i]` for a nonnegative in-range index is an ordinary front lookup. -/
theorem pyGet_nonneg {α : Type _} (xs : List α) (i : Int) (h : 0 ≤ i) :
    pyGet xs i = xs.get? i.toNat := by
  simp [pyGet, h]

/-- `xs[-1]` on a list ending in `[b, a]` is the last element `a`. -/
theorem pyGet_neg_one {α : Type _} (pre : List α) (b a : α) :
    pyGet (pre ++ [b, a]) (-1) = some a := by
  have hl : (pre ++ [b, a]).length = pre.length + 2 := by simp
  have ht : (-(-1 : Int)).toNat = 1 := rfl
  simp only [pyGet, ht, hl]
  rw [if_neg (by norm_num), if_pos (by omega)]
  have h2 : pre.length + 2 - 1 = pre.length + 1 := by omega
  rw [h2, List.get?_append_right (by omega)]
  have h3 : pre.length + 1 - pre.length = 1 := by omega
  rw [h3]
  rfl

/-- `xs[-2]` on a list ending in `[b, a]` is the second-to-last element `b`. -/
theorem pyGet_neg_two {α : Type _} (pre : List α) (b a : α) :
    pyGet (pre ++ [b, a]) (-2) = some b := by
  have hl : (pre ++ [b, a]).length = pre.length + 2 := by simp
  have ht : (-(-2 : Int)).toNat = 2 := rfl
  simp only [pyGet, ht, hl]
  rw [if_neg (by norm_num), if_pos (by omega)]
  have h2 : pre.length + 2 - 2 = pre.length := by omega
  rw [h2, List.get?_append_right (by omega)]
  have h3 : pre.length - pre.length = 0 := by omega
  rw [h3]
  rfl

/-- A list of length at least two splits off its last two elements. -/
theorem exists_last_two {α : Type _} (l : List α) (h : 2 ≤ l.length) :
    ∃ pre b a, l = pre ++ [b, a] := by
  rcases hrev : l.reverse with _ | ⟨a, _ | ⟨b, t⟩⟩
  · have := congrArg List.length hrev
    simp at this
    simp [this] at h
  · have := congrArg List.length hrev
    simp at this
    omega
  · refine ⟨t.reverse, b, a, ?_⟩
    have h2 : l = (a :: b :: t).reverse := by rw [← hrev, List.reverse_reverse]
    simpa using h2

/-- A nonnegative in-range Python index succeeds. -/
theorem pyGet_eq_get {α : Type _} (xs : List α) (i : Int) (h0 : 0 ≤ i)
    (h : i.toNat < xs.length) :
    pyGet xs i = some (xs.get ⟨i.toNat, h⟩) := by
  rw [pyGet_nonneg xs i h0, List.get?_eq_get h]

/-- A nonnegative out-of-range Python index raises `IndexError`. -/
theorem pyGet_none_of_ge {α : Type _} (xs : List α) (i : Int)
    (h : (xs.length : Int) ≤ i) :
    pyGet xs i = none := by
  have h0 : 0 ≤ i := le_trans (by positivity) h
  rw [pyGet_nonneg xs i h0]
  exact List.get?_eq_none.mpr (by omega)

/-- Collecting succeeds exactly on lists of `some`s, with the same length. -/
theorem optList_length {α : Type _} :
    ∀ {l : List (Option α)} {out : List α},
      optList l = some out → out.length = l.length
  | [], out, h => by simp [optList] at h; simp [← h]
  | none :: rest, out, h => by simp [optList] at h
  | some a :: rest, out, h => by
      simp only [optList, Option.map_eq_some'] at h
      obtain ⟨t, ht, rfl⟩ := h
      simp [optList_length ht]

/-- Every element of a collected list occurs as a `some` in the input. -/
theorem optList_mem {α : Type _} :
    ∀ {l : List (Option α)} {out : List α},
      optList l = some out → ∀ x ∈ out, some x ∈ l
  | [], out, h => by
      intro x hx
      simp [optList] at h
      subst h
      simp at hx
  | none :: rest, out, h => by simp [optList] at h
  | some a :: rest, out, h => by
      simp only [optList, Option.map_eq_some'] at h
      obtain ⟨t, ht, rfl⟩ := h
      intro x hx
      rcases List.mem_cons.mp hx with rfl | hx
      · exact List.mem_cons_self _ _
      · exact List.mem_cons_of_mem _ (optList_mem ht x hx)

/-- Collecting a list in which every entry is `some` succeeds. -/
theorem optList_isSome {α : Type _} :
    ∀ {l : List (Option α)}, (∀ o ∈ l, o.isSome) →
      ∃ out, optList l = some out
  | [], _ => ⟨[], rfl⟩
  | o :: rest, h => by
      obtain ⟨a, rfl⟩ := Option.isSome_iff_exists.mp (h o (List.mem_cons_self _ _))
      obtain ⟨t, ht⟩ := optList_isSome (fun o ho => h o (List.mem_cons_of_mem _ ho))
      exact ⟨a :: t, by simp [optList, ht]⟩

/-- A successfully built row has as many entries as there were draws. -/
theorem buildRow_length {draws : List ℚ} {i : Nat} {row : List ℚ}
    (h : buildRow draws i = some row) : row.length = draws.length := by
  simp only [buildRow] at h
  split at h
  · exact absurd h (by simp)
  · simp only [Option.some.injEq] at h
    simp [← h, dampDiag]

/-- A successfully built transition matrix is `num_states` rows of
`num_states` entries each. -/
theorem buildMatrix_lengths {mdraw : Nat → Nat → ℚ} {n : Nat}
    {tm : List (List ℚ)} (h : buildMatrix mdraw n = some tm) :
    tm.length = n ∧ ∀ row ∈ tm, row.length = n := by
  constructor
  · have := optList_length h
    simpa using this
  · intro row hrow
    have hmem := optList_mem h row hrow
    obtain ⟨i, _, hrow_eq⟩ := List.mem_map.mp hmem
    have := buildRow_length hrow_eq
    simpa using this

/-- Sampling with in-range indices yields one pool entry per index. -/
theorem sample_list_length {α : Type _} (pool : List α) :
    ∀ (idxs : List Nat), (∀ i ∈ idxs, i < pool.length) →
      (sample_list pool idxs).length = idxs.length
  | [], _ => rfl
  | i :: js, h => by
      have hi : i < pool.length := h i (List.mem_cons_self i js)
      have hrest := sample_list_length pool js
        (fun j hj => h j (List.mem_cons_of_mem _ hj))
      simp only [sample_list, List.filterMap_cons] at hrest ⊢
      rw [List.get?_eq_get hi]
      simpa using hrest

/-- The selected operator list has exactly `num_states` entries when the
sampler returns `min(num_states, len(operation_pool))` indices and
`num_states - len(operation_pool)` extra constants are drawn. -/
theorem selected_operations_length (idxs : List Nat) (cs : List Int)
    (n : Nat) (hv : ∀ i ∈ idxs, i < operation_pool.length)
    (hlen : idxs.length = min n operation_pool.length)
    (hcs : cs.length = n - operation_pool.length) :
    (selected_operations idxs cs n).length = n := by
  have hs := sample_list_length operation_pool idxs hv
  simp only [selected_operations]
  split
  · simp only [List.length_append, List.length_map, hs, hlen, hcs]
    omega
  · simp only [hs, hlen]
    omega

/-- Main loop invariant: with `n` functions, `n` names, an `n × n` matrix, a
state in `0 ≤ state < n`, in-range next-state draws, and at least two
sequence values, each of the `k` remaining iterations succeeds and appends
exactly one value. -/
theorem markov_loop_length (sdraw : Nat → Nat) (n : Nat)
    (hsd : ∀ j, sdraw j < n) :
    ∀ (k stepIdx : Nat) (mc : MarkovChain) (sequence : List Int),
      mc.functions_matrix.length = n →
      mc.function_names.length = n →
      mc.transition_matrix.length = n →
      (∀ row ∈ mc.transition_matrix, row.length = n) →
      0 ≤ mc.state → mc.state < n →
      2 ≤ sequence.length →
      ∃ out, markov_loop sdraw k stepIdx mc sequence = some out ∧
        out.length = sequence.length + k := by
  intro k
  induction k with
  | zero =>
      intro stepIdx mc sequence _ _ _ _ _ _ _
      exact ⟨sequence, rfl, by omega⟩
  | succ k ih =>
      intro stepIdx mc sequence hf hn htm hrows hs0 hs1 hseq
      have hlt : mc.state.toNat < mc.functions_matrix.length := by
        rw [hf]; omega
      have hltn : mc.state.toNat < mc.function_names.length := by
        rw [hn]; omega
      have hltt : mc.state.toNat < mc.transition_matrix.length := by
        rw [htm]; omega
      obtain ⟨pre, vb, va, rfl⟩ := exists_last_two sequence hseq
      set probs := mc.transition_matrix.get ⟨mc.state.toNat, hltt⟩ with hprobs
      have hplen : probs.length = n :=
        hrows probs (List.get_mem _ _ _)
      have hguard : sdraw stepIdx < probs.length := by
        rw [hplen]; exact hsd stepIdx
      set mc2 : MarkovChain :=
        { mc with state := ((sdraw stepIdx : Nat) : Int) } with hmc2
      have hrec := ih (stepIdx + 1) mc2
        ((pre ++ [vb, va]) ++
          [mc.functions_matrix.get ⟨mc.state.toNat, hlt⟩ va vb])
        (by simpa [hmc2] using hf) (by simpa [hmc2] using hn)
        (by simpa [hmc2] using htm) (by simpa [hmc2] using hrows)
        (by simp [hmc2]) (by simp [hmc2]; exact_mod_cast hsd stepIdx)
        (by simp)
      obtain ⟨out, hout, hlen⟩ := hrec
      refine ⟨out, ?_, ?_⟩
      · simp only [markov_loop, pyGet_eq_get _ _ hs0 hlt,
          pyGet_eq_get _ _ hs0 hltn, pyGet_neg_one, pyGet_neg_two,
          MarkovChain.update_state, pyGet_eq_get _ _ hs0 hltt,
          Option.bind_eq_bind, Option.some_bind]
        rw [if_pos hguard]
        simp only [Option.some_bind]
        simpa using hout
      · simp at hlen ⊢
        omega

/-- The heap-model loop writes only the sequence cell: every other heap
address is unchanged by a successful run. -/
theorem heap_markov_loop_frame (sdraw : Nat → Nat) :
    ∀ (k stepIdx : Nat) (mc : MarkovChain) (heap : List (List Int))
      (seqAddr : Nat) (heapFin : List (List Int)),
      heap_markov_loop sdraw k stepIdx mc heap seqAddr = some heapFin →
      ∀ j, j ≠ seqAddr → heapFin.get? j = heap.get? j := by
  intro k
  induction k with
  | zero =>
      intro stepIdx mc heap seqAddr heapFin h j _
      simp only [heap_markov_loop, Option.some.injEq] at h
      rw [h]
  | succ k ih =>
      intro stepIdx mc heap seqAddr heapFin h j hj
      rw [heap_markov_loop] at h
      cases hf : pyGet mc.functions_matrix mc.state with
      | none =>
          simp only [hf, Option.bind_eq_bind, Option.none_bind] at h
          exact Option.noConfusion h
      | some f =>
      simp only [hf, Option.bind_eq_bind, Option.some_bind] at h
      cases hnm : pyGet mc.function_names mc.state with
      | none =>
          simp only [hnm, Option.bind_eq_bind, Option.none_bind] at h
          exact Option.noConfusion h
      | some nm =>
      simp only [hnm, Option.bind_eq_bind, Option.some_bind] at h
      cases ha : pyGet (heap.getD seqAddr []) (-1) with
      | none =>
          simp only [ha, Option.bind_eq_bind, Option.none_bind] at h
          exact Option.noConfusion h
      | some a =>
      simp only [ha, Option.bind_eq_bind, Option.some_bind] at h
      cases hb : pyGet (heap.getD seqAddr []) (-2) with
      | none =>
          simp only [hb, Option.bind_eq_bind, Option.none_bind] at h
          exact Option.noConfusion h
      | some b =>
      simp only [hb, Option.bind_eq_bind, Option.some_bind] at h
      cases hmc2 : mc.update_state (sdraw stepIdx) with
      | none =>
          simp only [hmc2, Option.bind_eq_bind, Option.none_bind] at h
          exact Option.noConfusion h
      | some mc2 =>
      simp only [hmc2, Option.bind_eq_bind, Option.some_bind] at h
      have := ih (stepIdx + 1) mc2
        (heap.set seqAddr (heap.getD seqAddr [] ++ [f a b])) seqAddr
        heapFin h j hj
      rw [this, List.get?_set_ne _ _ (Ne.symm hj)]

/-- Sum of a list after updating one in-range entry. -/
theorem sum_set (l : List ℚ) :
    ∀ (i : Nat) (x : ℚ), i < l.length →
      (l.set i x).sum = l.sum - l.getD i 0 + x := by
  induction l with
  | nil => intro i x h; simp at h
  | cons hd tl ih =>
      intro i x h
      cases i with
      | zero =>
          simp only [List.set, List.sum_cons, List.getD_cons_zero]
          ring
      | succ i =>
          have hi : i < tl.length := by simpa using h
          simp only [List.set, List.sum_cons, List.getD_cons_succ, ih i x hi]
          ring

/-- Dividing every entry divides the sum. -/
theorem sum_map_div (l : List ℚ) (c : ℚ) :
    (l.map (fun p => p / c)).sum = l.sum / c := by
  induction l with
  | nil => simp
  | cons hd tl ih => simp [ih, add_div]

/-- `getD` with default `0` is nonnegative on a nonnegative list. -/
theorem getD_nonneg (draws : List ℚ) (i : Nat)
    (h0 : ∀ p ∈ draws, 0 ≤ p) : 0 ≤ draws.getD i 0 := by
  rw [List.getD_eq_get?]
  cases hg : draws.get? i with
  | none => simp
  | some v =>
      simp only [Option.getD_some]
      exact h0 v (List.get?_mem hg)

/-- Damping the diagonal preserves nonnegativity of the row. -/
theorem dampDiag_nonneg (draws : List ℚ) (i : Nat)
    (h0 : ∀ p ∈ draws, 0 ≤ p) : ∀ p ∈ dampDiag draws i, 0 ≤ p := by
  intro p hp
  rcases List.mem_or_eq_of_mem_set hp with hmem | rfl
  · exact h0 p hmem
  · have := getD_nonneg draws i h0
    positivity

/-- A nonnegative row with nonzero sum still has positive sum after the
`0.2` diagonal damping. -/
theorem dampDiag_sum_pos (draws : List ℚ) (i : Nat) (hi : i < draws.length)
    (h0 : ∀ p ∈ draws, 0 ≤ p) (hs : draws.sum ≠ 0) :
    0 < (dampDiag draws i).sum := by
  have hset := sum_set draws i (draws.getD i 0 * (1 / 5)) hi
  have hd0 : 0 ≤ draws.getD i 0 := getD_nonneg draws i h0
  have hdle : draws.getD i 0 ≤ draws.sum := by
    rw [List.getD_eq_get?, List.get?_eq_get hi]
    simpa using List.single_le_sum h0 _ (List.get_mem _ _ _)
  have hsum0 : 0 ≤ draws.sum := List.sum_nonneg h0
  have hpos : 0 < draws.sum := lt_of_le_of_ne hsum0 (Ne.symm hs)
  rw [dampDiag, hset]
  linarith

/-- Row normalization: with raw draws nonnegative and of nonzero sum,
`buildRow` succeeds and produces a row with entries in `[0, 1]` summing to
exactly `1`. -/
theorem buildRow_stochastic (draws : List ℚ) (i : Nat) (hi : i < draws.length)
    (h0 : ∀ p ∈ draws, 0 ≤ p) (hs : draws.sum ≠ 0) :
    ∃ row, buildRow draws i = some row ∧ row.sum = 1 ∧
      ∀ p ∈ row, 0 ≤ p ∧ p ≤ 1 := by
  have hpos := dampDiag_sum_pos draws i hi h0 hs
  have hnz : (dampDiag draws i).sum ≠ 0 := ne_of_gt hpos
  refine ⟨(dampDiag draws i).map (fun p => p / (dampDiag draws i).sum),
    ?_, ?_, ?_⟩
  · simp [buildRow, hnz]
  · rw [sum_map_div]
    exact div_self hnz
  · intro p hp
    obtain ⟨q, hq, rfl⟩ := List.mem_map.mp hp
    have hq0 : 0 ≤ q := dampDiag_nonneg draws i h0 q hq
    have hqle : q ≤ (dampDiag draws i).sum :=
      List.single_le_sum (dampDiag_nonneg draws i h0) q hq
    exact ⟨div_nonneg hq0 hpos.le, (div_le_one hpos).mpr hqle⟩

/-- One loop iteration for a single-state chain with all next-state draws
zero: the operator bound to state `0` is applied to the last value `a` and
the second-to-last value `b`, in that order, and the state stays `0`. -/
theorem markov_loop_single_step (sdraw : Nat → Nat) (hz : ∀ j, sdraw j = 0)
    (f : Int → Int → Int) (nm : String) (row : List ℚ)
    (hrow : row.length = 1) (k stepIdx : Nat) (pre : List Int) (b a : Int) :
    markov_loop sdraw (k + 1) stepIdx ⟨[row], [f], [nm], 0⟩ (pre ++ [b, a]) =
      markov_loop sdraw k (stepIdx + 1) ⟨[row], [f], [nm], 0⟩
        (pre ++ [b, a, f a b]) := by
  have hf : pyGet ([f] : List (Int → Int → Int)) 0 = some f := rfl
  have hnm : pyGet ([nm] : List String) 0 = some nm := rfl
  have ht : pyGet ([row] : List (List ℚ)) 0 = some row := rfl
  simp only [markov_loop, MarkovChain.update_state, hf, hnm, ht,
    pyGet_neg_one, pyGet_neg_two, Option.bind_eq_bind, Option.some_bind,
    hz, hrow]
  simp

/-- A row whose draws are all zero still sums to zero after damping, so
`buildRow` hits the `ZeroDivisionError` branch. -/
theorem buildRow_zero (draws : List ℚ) (h : ∀ p ∈ draws, p = 0) (i : Nat) :
    buildRow draws i = none := by
  have hd : draws.getD i 0 = 0 := by
    rw [List.getD_eq_get?]
    cases hg : draws.get? i with
    | none => rfl
    | some v => simp [h v (List.get?_mem hg)]
  have hsum : (dampDiag draws i).sum = 0 := by
    apply List.sum_eq_zero
    intro p hp
    rcases List.mem_or_eq_of_mem_set hp with hmem | rfl
    · exact h p hmem
    · rw [hd]
      ring
  simp [buildRow, hsum]

/-- Labels drawn from the pool at distinct in-range indices are distinct,
because the pool's sixteen labels are pairwise distinct. -/
theorem sample_labels_nodup (idxs : List Nat) (hnd : idxs.Nodup)
    (hv : ∀ i ∈ idxs, i < operation_pool.length) :
    ((sample_list operation_pool idxs).map Prod.snd).Nodup := by
  have hlabels : (operation_pool.map Prod.snd).Nodup := by decide
  rw [sample_list, List.map_filterMap]
  refine List.Nodup.filterMap ?_ hnd
  intro a a2 b hb hb2
  rw [Option.mem_def] at hb hb2
  have ha : (operation_pool.map Prod.snd).get? a = some b := by
    rw [List.get?_map]
    exact hb
  have ha2 : (operation_pool.map Prod.snd).get? a2 = some b := by
    rw [List.get?_map]
    exact hb2
  have hlt : a < (operation_pool.map Prod.snd).length := by
    by_contra hcon
    rw [List.get?_eq_none.mpr (by omega)] at ha
    exact Option.noConfusion ha
  exact List.get?_inj hlt hlabels (ha.trans ha2.symm)

/-! ### Claim theorems -/

/-- Claim C1, counterexample: with seeds `[2, 3]` and `steps = 5` the
returned sequence has length `6`, not `5` — `steps` does not equal the
total sequence length. -/
theorem markov_total_length_cex :
    (markov [2, 3] 5 0 1 (fun _ _ => (1 : ℚ) / 2) [0] [] (fun _ => 0)).map
        List.length = some 6 ∧ (6 : Nat) ≠ 5 := by
  constructor
  · simp only [markov]
    rw [buildMatrix_half_one]
    decide
  · decide

/-- Claim C1 (amended): for every valid call, `markov` returns a sequence of
length `len(initial_values) + (steps - 1)`: the loop `for step in
range(1, steps)` appends exactly `steps - 1` values to the seeds, so the
total length is the seed count plus the number of appended values (not
`steps`). -/
theorem markov_length (initial_values : List Int) (steps : Nat)
    (initial_state : Int) (num_states : Nat) (mdraw : Nat → Nat → ℚ)
    (idxs : List Nat) (cs : List Int) (sdraw : Nat → Nat)
    (tm : List (List ℚ)) (htm : buildMatrix mdraw num_states = some tm)
    (hv : ∀ i ∈ idxs, i < operation_pool.length)
    (hlen : idxs.length = min num_states operation_pool.length)
    (hcs : cs.length = num_states - operation_pool.length)
    (hs0 : 0 ≤ initial_state) (hs1 : initial_state < (num_states : Int))
    (hsd : ∀ j, sdraw j < num_states)
    (hseq : 2 ≤ initial_values.length) :
    ∃ out, markov initial_values steps initial_state num_states mdraw idxs
        cs sdraw = some out ∧
      out.length = initial_values.length + (steps - 1) := by
  obtain ⟨hlen_tm, hrows⟩ := buildMatrix_lengths htm
  have hsel := selected_operations_length idxs cs num_states hv hlen hcs
  obtain ⟨out, hout, hl⟩ := markov_loop_length sdraw num_states hsd
    (steps - 1) 1
    { transition_matrix := tm
      functions_matrix := (selected_operations idxs cs num_states).map
        Prod.fst
      function_names := (selected_operations idxs cs num_states).map
        Prod.snd
      state := initial_state }
    initial_values (by simpa using hsel) (by simpa using hsel)
    (by simpa using hlen_tm) (by simpa using hrows) hs0 hs1 hseq
  refine ⟨out, ?_, hl⟩
  simp only [markov, htm, Option.bind_eq_bind, Option.some_bind]
  exact hout

/-- Claim C1, witness for the amended theorem: a concrete valid run with two
seeds and `steps = 5` returns a sequence of length `2 + 4 = 6`. -/
theorem markov_length_witness :
    ∃ out, markov [2, 3] 5 0 1 (fun _ _ => (1 : ℚ) / 2) [0] [] (fun _ => 0) =
        some out ∧ out.length = 2 + (5 - 1) :=
  markov_length [2, 3] 5 0 1 (fun _ _ => (1 : ℚ) / 2) [0] [] (fun _ => 0)
    [[1]] buildMatrix_half_one (by decide) (by decide) (by decide)
    (by decide) (by decide) (fun j => Nat.zero_lt_one) (by decide)

/-- Claim C2: at every recurrence step the engine appends
`op(sequence[-1], sequence[-2])` — the operator bound to the current state
applied with the most recent value `a` as first argument and the
second-most-recent value `b` as second argument — and then transitions;
it never appends `op(sequence[-2], sequence[-1])`. -/
theorem markov_step_applies_op_to_last_two (sdraw : Nat → Nat)
    (k stepIdx : Nat) (mc : MarkovChain) (pre : List Int) (b a : Int)
    (f : Int → Int → Int)
    (hf : pyGet mc.functions_matrix mc.state = some f)
    (hn : (pyGet mc.function_names mc.state).isSome) :
    markov_loop sdraw (k + 1) stepIdx mc (pre ++ [b, a]) =
      (mc.update_state (sdraw stepIdx)).bind (fun mc2 =>
        markov_loop sdraw k (stepIdx + 1) mc2 (pre ++ [b, a, f a b])) := by
  obtain ⟨nm, hnm⟩ := Option.isSome_iff_exists.mp hn
  simp only [markov_loop, hf, hnm, pyGet_neg_one, pyGet_neg_two,
    Option.bind_eq_bind, Option.some_bind]
  have happ : (pre ++ [b, a]) ++ [f a b] = pre ++ [b, a, f a b] := by simp
  rw [happ]

/-- Claim C2, witness: one step with the non-commutative operator `x - y`
bound to state `0` on the sequence `[2, 3]` appends
`(fun x y => x - y) 3 2` (most recent first), i.e. `1`, not `-1`. -/
theorem markov_step_applies_op_to_last_two_witness :
    markov_loop (fun _ => 0) 1 1
        ⟨[[1]], [fun x y => x - y], ["x - y"], 0⟩ ([] ++ [2, 3]) =
      ((MarkovChain.update_state
          ⟨[[1]], [fun x y => x - y], ["x - y"], 0⟩ ((fun _ => 0) 1)).bind
        (fun mc2 => markov_loop (fun _ => 0) 0 2 mc2
          ([] ++ [2, 3, (fun x y => x - y) 3 2]))) :=
  markov_step_applies_op_to_last_two (fun _ => 0) 0 1
    ⟨[[1]], [fun x y => x - y], ["x - y"], 0⟩ [] 2 3 (fun x y => x - y)
    rfl rfl

/-- Claim C3: every successfully constructed transition matrix is
row-stochastic — for raw draws that are nonnegative (as `random.random()`
guarantees) with nonzero row sums, every row of the result has entries in
`[0, 1]` and sums to exactly `1`, hence within `1e-9` of `1.0`. -/
theorem buildMatrix_row_stochastic (num_states : Nat) (hn : 1 ≤ num_states)
    (mdraw : Nat → Nat → ℚ)
    (h0 : ∀ i j, 0 ≤ mdraw i j ∧ mdraw i j < 1)
    (hs : ∀ i, ((List.range num_states).map (mdraw i)).sum ≠ 0) :
    ∃ tm, buildMatrix mdraw num_states = some tm ∧
      ∀ row ∈ tm, (∀ p ∈ row, 0 ≤ p ∧ p ≤ 1) ∧ row.sum = 1 ∧
        |row.sum - 1| < 1 / 1000000000 := by
  have hsome : ∀ o ∈ (List.range num_states).map (fun i =>
      buildRow ((List.range num_states).map (mdraw i)) i), o.isSome := by
    intro o ho
    obtain ⟨i, hi, rfl⟩ := List.mem_map.mp ho
    have hi2 : i < num_states := List.mem_range.mp hi
    obtain ⟨row, hrow, _, _⟩ := buildRow_stochastic
      ((List.range num_states).map (mdraw i)) i (by simpa using hi2)
      (fun p hp => by
        obtain ⟨j, _, rfl⟩ := List.mem_map.mp hp
        exact (h0 i j).1)
      (hs i)
    simp [hrow]
  obtain ⟨tm, htm⟩ := optList_isSome hsome
  refine ⟨tm, by simpa [buildMatrix] using htm, ?_⟩
  intro row hrowmem
  have hmem := optList_mem htm row hrowmem
  obtain ⟨i, hi, heq⟩ := List.mem_map.mp hmem
  have hi2 : i < num_states := List.mem_range.mp hi
  obtain ⟨row2, hrow2, hsum, hbounds⟩ := buildRow_stochastic
    ((List.range num_states).map (mdraw i)) i (by simpa using hi2)
    (fun p hp => by
      obtain ⟨j, _, rfl⟩ := List.mem_map.mp hp
      exact (h0 i j).1)
    (hs i)
  have hrr : row2 = row := by
    rw [heq] at hrow2
    exact (Option.some.inj hrow2).symm
  subst hrr
  refine ⟨hbounds, hsum, by rw [hsum]; norm_num⟩

/-- Claim C3, witness: the `1 × 1` case with all draws `1/2` produces a
matrix whose single row is `[1]`. -/
theorem buildMatrix_row_stochastic_witness :
    ∃ tm, buildMatrix (fun _ _ => (1 : ℚ) / 2) 1 = some tm ∧
      ∀ row ∈ tm, (∀ p ∈ row, 0 ≤ p ∧ p ≤ 1) ∧ row.sum = 1 ∧
        |row.sum - 1| < 1 / 1000000000 :=
  buildMatrix_row_stochastic 1 (by norm_num) (fun _ _ => (1 : ℚ) / 2)
    (fun i j => by norm_num)
    (fun i => by norm_num [List.range_succ, List.range_zero])

/-- Claim C4: with seeds `[2, 3]`, one state whose operator is `x + y`, and
`steps = 5`, `markov` returns `[2, 3, 5, 8, 13, 21]` for every next-state
draw sequence (with one state, `random.choices` can only return state
`0`). -/
theorem markov_fibonacci_example (mdraw : Nat → Nat → ℚ)
    (tm : List (List ℚ)) (htm : buildMatrix mdraw 1 = some tm)
    (sdraw : Nat → Nat) (hsd : ∀ j, sdraw j < 1) :
    markov [2, 3] 5 0 1 mdraw [0] [] sdraw = some [2, 3, 5, 8, 13, 21] := by
  obtain ⟨hlen, hrows⟩ := buildMatrix_lengths htm
  obtain ⟨row, rfl⟩ : ∃ row, tm = [row] := by
    cases tm with
    | nil => simp at hlen
    | cons r t =>
        cases t with
        | nil => exact ⟨r, rfl⟩
        | cons _ _ => simp at hlen
  have hrow : row.length = 1 := hrows row (by simp)
  have hz : ∀ j, sdraw j = 0 := fun j => Nat.lt_one_iff.mp (hsd j)
  have hL := markov_loop_single_step sdraw hz (fun x y => x + y) "x + y"
    row hrow
  simp only [markov, htm, Option.bind_eq_bind, Option.some_bind]
  show markov_loop sdraw 4 1 ⟨[row], [fun x y => x + y], ["x + y"], 0⟩
      ([] ++ [2, 3]) = some [2, 3, 5, 8, 13, 21]
  calc markov_loop sdraw 4 1 ⟨[row], [fun x y => x + y], ["x + y"], 0⟩
        ([] ++ [2, 3])
      = markov_loop sdraw 3 2 ⟨[row], [fun x y => x + y], ["x + y"], 0⟩
        ([] ++ [2, 3, (fun x y : Int => x + y) 3 2]) := hL 3 1 [] 2 3
    _ = markov_loop sdraw 2 3 ⟨[row], [fun x y => x + y], ["x + y"], 0⟩
        ([2] ++ [3, 5, (fun x y : Int => x + y) 5 3]) := hL 2 2 [2] 3 5
    _ = markov_loop sdraw 1 4 ⟨[row], [fun x y => x + y], ["x + y"], 0⟩
        ([2, 3] ++ [5, 8, (fun x y : Int => x + y) 8 5]) := hL 1 3 [2, 3] 5 8
    _ = markov_loop sdraw 0 5 ⟨[row], [fun x y => x + y], ["x + y"], 0⟩
        ([2, 3, 5] ++ [8, 13, (fun x y : Int => x + y) 13 8]) :=
          hL 0 4 [2, 3, 5] 8 13
    _ = some [2, 3, 5, 8, 13, 21] := rfl

/-- Claim C4, witness: the concrete single-state run with matrix draws
`1/2` and all next-state draws `0` produces `[2, 3, 5, 8, 13, 21]`. -/
theorem markov_fibonacci_example_witness :
    markov [2, 3] 5 0 1 (fun _ _ => (1 : ℚ) / 2) [0] [] (fun _ => 0) =
      some [2, 3, 5, 8, 13, 21] :=
  markov_fibonacci_example (fun _ _ => (1 : ℚ) / 2) [[1]]
    buildMatrix_half_one (fun _ => 0) (fun j => Nat.zero_lt_one)

/-- Claim C9: the pool's division operators (`"x // y"` at index 14 and
`"y // x"` at index 15) substitute `1` for a zero divisor: they compute
floor division by `1` when the divisor is `0` (so `x // y` returns `x`
when `y = 0`), and ordinary floor division otherwise — application is
total on all integer pairs. -/
theorem division_ops_zero_divisor_guard (x y : Int) :
    op_x_div_y x y = Int.fdiv x (if y = 0 then 1 else y) ∧
    op_y_div_x x y = Int.fdiv y (if x = 0 then 1 else x) ∧
    op_x_div_y x 0 = x ∧ op_y_div_x 0 y = y ∧
    operation_pool.get? 14 = some (op_x_div_y, "x // y") ∧
    operation_pool.get? 15 = some (op_y_div_x, "y // x") := by
  refine ⟨?_, ?_, ?_, ?_, rfl, rfl⟩
  · by_cases h : y = 0 <;> simp [op_x_div_y, h]
  · by_cases h : x = 0 <;> simp [op_y_div_x, h]
  · simp [op_x_div_y, Int.fdiv_one]
  · simp [op_y_div_x, Int.fdiv_one]

/-- Claim C5, counterexample: `markov([5], steps=1)` succeeds and returns
`[5]` — a single-seed call does not fail at call time with
`InsufficientSeedError` (the source performs no seed-count validation). -/
theorem markov_single_seed_cex :
    markov [5] 1 0 1 (fun _ _ => (1 : ℚ) / 2) [0] [] (fun _ => 0) =
      some [5] := by
  simp only [markov]
  rw [buildMatrix_half_one]
  decide

/-- Claim C5 (amended): `markov` never raises a dedicated seed error: with a
single seed `[v]` and default `initial_state = 0`, it returns `[v]`
unchanged when `steps <= 1`, and crashes with `IndexError` (modelled
`none`) at the first recurrence step's `sequence[-2]` access when
`steps >= 2` — after the transition matrix and operator sample have
already consumed randomness. -/
theorem markov_single_seed_behavior (v : Int) (steps : Nat)
    (num_states : Nat) (mdraw : Nat → Nat → ℚ) (idxs : List Nat)
    (cs : List Int) (sdraw : Nat → Nat) (tm : List (List ℚ))
    (htm : buildMatrix mdraw num_states = some tm)
    (hv : ∀ i ∈ idxs, i < operation_pool.length)
    (hlen : idxs.length = min num_states operation_pool.length)
    (hn : 1 ≤ num_states) :
    markov [v] steps 0 num_states mdraw idxs cs sdraw =
      if steps ≤ 1 then some [v] else none := by
  have hsamp := sample_list_length operation_pool idxs hv
  have hpool : operation_pool.length = 16 := rfl
  have h1 : 1 ≤ (selected_operations idxs cs num_states).length := by
    simp only [selected_operations]
    split
    · simp only [List.length_append, List.length_map, hsamp, hlen, hpool]
      omega
    · simp only [hsamp, hlen, hpool]
      omega
  simp only [markov, htm, Option.bind_eq_bind, Option.some_bind]
  match steps with
  | 0 => rw [if_pos (by omega)]; rfl
  | 1 => rw [if_pos (by omega)]; rfl
  | (k + 2) =>
      rw [if_neg (by omega)]
      show markov_loop sdraw (k + 1) 1 _ [v] = none
      have hf : (0 : Int).toNat <
          ((selected_operations idxs cs num_states).map Prod.fst).length := by
        simpa using h1
      have hfn : (0 : Int).toNat <
          ((selected_operations idxs cs num_states).map Prod.snd).length := by
        simpa using h1
      have hf0 := pyGet_eq_get
        ((selected_operations idxs cs num_states).map Prod.fst) 0 le_rfl hf
      have hn0 := pyGet_eq_get
        ((selected_operations idxs cs num_states).map Prod.snd) 0 le_rfl hfn
      have ha : pyGet [v] (-1) = some v := rfl
      have hb : pyGet ([v] : List Int) (-2) = none := rfl
      simp only [markov_loop, hf0, hn0, ha, hb, Option.bind_eq_bind,
        Option.some_bind, Option.none_bind]

/-- Claim C5, witness for the amended theorem: a concrete single-seed call
with `steps = 2` crashes (returns `none`). -/
theorem markov_single_seed_behavior_witness :
    markov [5] 2 0 1 (fun _ _ => (1 : ℚ) / 2) [0] [] (fun _ => 0) =
      if (2 : Nat) ≤ 1 then some [5] else none :=
  markov_single_seed_behavior 5 2 1 (fun _ _ => (1 : ℚ) / 2) [0] []
    (fun _ => 0) [[1]] buildMatrix_half_one (by decide) (by decide)
    (by decide)

/-- Claim C6, counterexample: `markov([2, 3], steps=2, initial_state=-1,
num_states=1)` violates `0 <= initial_state < num_states` yet succeeds,
returning `[2, 3, 5]` — Python negative indexing silently selects the last
state's operator, and no `InvalidStateError` exists in the source. -/
theorem markov_negative_state_cex :
    markov [2, 3] 2 (-1) 1 (fun _ _ => (1 : ℚ) / 2) [0] [] (fun _ => 0) =
      some [2, 3, 5] := by
  simp only [markov]
  rw [buildMatrix_half_one]
  decide

/-- Claim C6 (amended): `markov` performs no initial-state validation: an
`initial_state >= num_states` is only detected as an `IndexError`
(modelled `none`) at the first recurrence step's operator lookup when
`steps >= 2`, not at call time; a negative in-range state succeeds via
Python negative indexing. -/
theorem markov_state_out_of_range_crashes (initial_values : List Int)
    (steps : Nat) (initial_state : Int) (num_states : Nat)
    (mdraw : Nat → Nat → ℚ) (idxs : List Nat) (cs : List Int)
    (sdraw : Nat → Nat) (tm : List (List ℚ))
    (htm : buildMatrix mdraw num_states = some tm)
    (hv : ∀ i ∈ idxs, i < operation_pool.length)
    (hlen : idxs.length = min num_states operation_pool.length)
    (hcs : cs.length = num_states - operation_pool.length)
    (hstate : (num_states : Int) ≤ initial_state)
    (hsteps : 2 ≤ steps) :
    markov initial_values steps initial_state num_states mdraw idxs cs
      sdraw = none := by
  have hsel := selected_operations_length idxs cs num_states hv hlen hcs
  simp only [markov, htm, Option.bind_eq_bind, Option.some_bind]
  obtain ⟨k, rfl⟩ : ∃ k, steps = k + 2 := ⟨steps - 2, by omega⟩
  show markov_loop sdraw (k + 1) 1 _ initial_values = none
  have hnone : pyGet
      ((selected_operations idxs cs num_states).map Prod.fst)
      initial_state = none := by
    apply pyGet_none_of_ge
    rw [List.length_map, hsel]
    exact hstate
  simp only [markov_loop, hnone, Option.bind_eq_bind, Option.none_bind]

/-- Claim C6, witness for the amended theorem: a concrete call with
`initial_state = 3 >= num_states = 1` crashes (returns `none`). -/
theorem markov_state_out_of_range_crashes_witness :
    markov [2, 3] 2 3 1 (fun _ _ => (1 : ℚ) / 2) [0] [] (fun _ => 0) =
      none :=
  markov_state_out_of_range_crashes [2, 3] 2 3 1 (fun _ _ => (1 : ℚ) / 2)
    [0] [] (fun _ => 0) [[1]] buildMatrix_half_one (by decide) (by decide)
    (by decide) (by decide) (by decide)

/-- Claim C7, counterexample: an all-zero draw row makes `buildRow` return
`none` (Python `ZeroDivisionError` in the normalization), and the failure
propagates out of `markov` — there is no uniform-distribution fallback and
no internally recovered `DegenerateRowError`. -/
theorem zero_row_crash_cex :
    buildRow [0] 0 = none ∧
      markov [2, 3] 5 0 1 (fun _ _ => 0) [0] [] (fun _ => 0) = none := by
  constructor
  · exact buildRow_zero [0] (by simp) 0
  · have hbm : buildMatrix (fun _ _ => (0 : ℚ)) 1 = none := by
      simp only [buildMatrix, List.range_succ, List.range_zero,
        List.nil_append, List.map_cons, List.map_nil]
      rw [buildRow_zero _ (by simp) 0]
      rfl
    simp only [markov, hbm, Option.bind_eq_bind, Option.none_bind]

/-- Claim C7 (amended): if every random draw is zero, the transition-matrix
construction divides by the zero row sum and crashes
(`ZeroDivisionError`, modelled `none`); the degenerate row is not replaced
by a uniform distribution and the failure reaches the caller of `markov`,
for every `num_states >= 1`. -/
theorem markov_zero_draws_crash (initial_values : List Int) (steps : Nat)
    (initial_state : Int) (num_states : Nat) (hn : 1 ≤ num_states)
    (idxs : List Nat) (cs : List Int) (sdraw : Nat → Nat) :
    markov initial_values steps initial_state num_states (fun _ _ => 0)
      idxs cs sdraw = none := by
  have hbm : buildMatrix (fun _ _ => (0 : ℚ)) num_states = none := by
    obtain ⟨m, rfl⟩ : ∃ m, num_states = m + 1 := ⟨num_states - 1, by omega⟩
    simp only [buildMatrix, List.range_succ_eq_map, List.map_cons]
    have hz0 : ∀ p ∈ (0 : ℚ) ::
        List.map (fun _ => (0 : ℚ)) (List.map Nat.succ (List.range m)),
        p = 0 := by
      intro p hp
      rcases List.mem_cons.mp hp with rfl | hp2
      · rfl
      · obtain ⟨q, _, hq⟩ := List.mem_map.mp hp2
        simpa using hq.symm
    rw [buildRow_zero _ hz0 0]
    rfl
  simp only [markov, hbm, Option.bind_eq_bind, Option.none_bind]

/-- Claim C7, witness for the amended theorem: the all-zero-draw crash at a
concrete two-state call. -/
theorem markov_zero_draws_crash_witness :
    markov [2, 3] 3 0 2 (fun _ _ => 0) [0, 1] [] (fun _ => 0) = none :=
  markov_zero_draws_crash [2, 3] 3 0 2 (by norm_num) [0, 1] [] (fun _ => 0)

/-- Claim C8, counterexample: with `num_states = 18` and both synthesized
constants drawn as `3`, the two synthesized operators carry the same label
`"x + y + 3"` — synthesized labels are not distinct. -/
theorem synth_label_collision_cex :
    ((selected_operations (List.range 16) [3, 3] 18).map Prod.snd).drop 16 =
      ["x + y + 3", "x + y + 3"] ∧
    ¬ (["x + y + 3", "x + y + 3"] : List String).Nodup := by
  constructor
  · decide
  · decide

/-- Claim C8 (amended): operator sampling returns exactly `num_states`
pairs in state-index order; the pool part is drawn without repetition (its
labels are pairwise distinct); each synthesized extra operator carries the
label `"x + y + c"` reflecting its drawn constant `c`, but synthesized
labels are not necessarily distinct (equal constants give equal labels). -/
theorem selected_operations_spec (idxs : List Nat) (cs : List Int) (n : Nat)
    (hnd : idxs.Nodup) (hv : ∀ i ∈ idxs, i < operation_pool.length)
    (hlen : idxs.length = min n operation_pool.length)
    (hcs : cs.length = n - operation_pool.length) :
    (selected_operations idxs cs n).length = n ∧
    ((sample_list operation_pool idxs).map Prod.snd).Nodup ∧
    ((selected_operations idxs cs n).map Prod.snd).drop
        (min n operation_pool.length) =
      cs.map (fun c => "x + y + " ++ toString c) := by
  refine ⟨selected_operations_length idxs cs n hv hlen hcs,
    sample_labels_nodup idxs hnd hv, ?_⟩
  have hsamp := sample_list_length operation_pool idxs hv
  simp only [selected_operations]
  split
  · rename_i hlt
    have hmin : min n operation_pool.length = operation_pool.length := by
      omega
    have hlablen :
        ((sample_list operation_pool idxs).map Prod.snd).length =
          operation_pool.length := by
      rw [List.length_map, hsamp, hlen, hmin]
    rw [List.map_append, hmin, ← hlablen, List.drop_left, List.map_map]
    rfl
  · rename_i hge
    have hmin : min n operation_pool.length = n := by omega
    have hcs0 : cs = [] := List.eq_nil_of_length_eq_zero (by omega)
    subst hcs0
    simp only [List.map_nil]
    apply List.drop_eq_nil_of_le
    rw [List.length_map, hsamp, hlen, hmin]

/-- Claim C8, witness for the amended theorem: a concrete 18-state sampling
with the full pool and constants `1, 2`. -/
theorem selected_operations_spec_witness :
    (selected_operations (List.range 16) [1, 2] 18).length = 18 ∧
    ((sample_list operation_pool (List.range 16)).map Prod.snd).Nodup ∧
    ((selected_operations (List.range 16) [1, 2] 18).map Prod.snd).drop
        (min 18 operation_pool.length) =
      ([1, 2] : List Int).map (fun c => "x + y + " ++ toString c) :=
  selected_operations_spec (List.range 16) [1, 2] 18 (by decide)
    (by decide) (by decide) (by decide)

/-- Claim C10: `markov` never mutates the caller's `initial_values` list:
in the heap model, `sequence = initial_values.copy()` allocates a fresh
cell and the loop appends only there, so every pre-existing heap cell —
in particular the caller's list — is unchanged when the call returns. -/
theorem markov_preserves_caller_heap (heap : List (List Int)) (ivAddr : Nat)
    (steps : Nat) (initial_state : Int) (num_states : Nat)
    (mdraw : Nat → Nat → ℚ) (idxs : List Nat) (cs : List Int)
    (sdraw : Nat → Nat) (heapFin : List (List Int))
    (hrun : heap_markov heap ivAddr steps initial_state num_states mdraw
      idxs cs sdraw = some heapFin)
    (j : Nat) (hj : j < heap.length) :
    heapFin.get? j = heap.get? j := by
  simp only [heap_markov] at hrun
  cases htm : buildMatrix mdraw num_states with
  | none =>
      rw [htm] at hrun
      simp at hrun
  | some tm =>
      rw [htm] at hrun
      simp only [Option.bind_eq_bind, Option.some_bind] at hrun
      have hframe := heap_markov_loop_frame sdraw (steps - 1) 1 _
        (heap ++ [heap.getD ivAddr []]) heap.length heapFin hrun j
        (by omega)
      rw [hframe, List.get?_append hj]

/-- Claim C10, witness: a concrete run starting from the heap `[[2, 3]]`
finishes with heap `[[2, 3], [2, 3, 5]]`, and the caller's cell `0` still
holds `[2, 3]`. -/
theorem markov_preserves_caller_heap_witness :
    ([[2, 3], [2, 3, 5]] : List (List Int)).get? 0 =
      ([[2, 3]] : List (List Int)).get? 0 :=
  markov_preserves_caller_heap [[2, 3]] 0 2 0 1 (fun _ _ => (1 : ℚ) / 2)
    [0] [] (fun _ => 0) [[2, 3], [2, 3, 5]]
    (by simp only [heap_markov]; rw [buildMatrix_half_one]; decide) 0
    (by decide)

end RandomMarkov
